import Mathlib

set_option maxHeartbeats 1000000

/- Shallow embedding of the vscoq language server's `Sentence.ts` together
   with the position/range arithmetic and lexical oracles it consumes.
   Document positions are (line, character) pairs of integers ordered
   lexicographically; sentence text is a list of characters; the attached
   computed-state handle is modelled as `Option Nat`, where the natural
   number counts how many times `markInvalid` has been invoked on it. -/

/-- A zero-based (line, character) document position (`vscode.Position`). -/
structure Pos where
  line : Int
  character : Int
  deriving DecidableEq, Repr

/-- A document range (`vscode.Range`). The source field `end` is a Lean
keyword, so it is embedded as `stop`. -/
structure Range where
  start : Pos
  stop : Pos
  deriving DecidableEq, Repr

/-- Modelled from the spec: text-util `positionIsBefore` — strict
lexicographic order on positions. -/
def positionIsBefore (a b : Pos) : Bool :=
  a.line < b.line || (a.line == b.line && a.character < b.character)

/-- Modelled from the spec: text-util `positionIsBeforeOrEqual`. -/
def positionIsBeforeOrEqual (a b : Pos) : Bool :=
  a.line < b.line || (a.line == b.line && a.character <= b.character)

/-- Modelled from the spec: text-util `positionIsAfter` —
`a` comes strictly after `b`. -/
def positionIsAfter (a b : Pos) : Bool :=
  positionIsBefore b a

/-- Modelled from the spec: text-util `positionIsAfterOrEqual`. -/
def positionIsAfterOrEqual (a b : Pos) : Bool :=
  positionIsBeforeOrEqual b a

/-- Modelled from the spec: text-util `positionIsEqual`. -/
def positionIsEqual (a b : Pos) : Bool :=
  a.line == b.line && a.character == b.character

/-- Modelled from the spec: text-util `rangeContains` — a range is a
half-open span, so it contains `p` when `start <= p < end`. -/
def rangeContains (r : Range) (p : Pos) : Bool :=
  !(positionIsBefore p r.start) && positionIsBefore p r.stop

/-- Advance a position over one character: a line terminator starts a new
line, any other character moves one column right. -/
def advancePos (p : Pos) (c : Char) : Pos :=
  if c = '\n' then ⟨p.line + 1, 0⟩ else ⟨p.line, p.character + 1⟩

/-- The position reached by walking all of `text` starting at `p`. -/
def walkAll : Pos → List Char → Pos
  | p, [] => p
  | p, c :: rest => walkAll (advancePos p c) rest

/-- The position reached by walking (up to) `n` characters of `text`
starting at `p`. -/
def walkPos : Pos → List Char → Nat → Pos
  | p, _, 0 => p
  | p, [], _ + 1 => p
  | p, c :: rest, n + 1 => walkPos (advancePos p c) rest n

/-- Modelled from the spec: text-util `positionAtRelative` — the absolute
position reached by walking `localOffset` characters of `text` from
`origin`, advancing the line on each line terminator. -/
def positionAtRelative (origin : Pos) (text : List Char) (localOffset : Nat) : Pos :=
  walkPos origin text localOffset

/-- Walk `text` from `cur` looking for `p`; the offset at which it is
reached, or `-1` when `p` is not reachable within the text. -/
def relAux : List Char → Pos → Pos → Int
  | [], cur, p => if cur = p then 0 else -1
  | c :: rest, cur, p =>
    if cur = p then 0
    else
      let r := relAux rest (advancePos cur c) p
      if r = -1 then -1 else r + 1

/-- Modelled from the spec: text-util `relativeOffsetAtAbsolutePosition` —
inverse of `positionAtRelative`; returns `-1` if `position` does not fall
within the text starting at `origin`. -/
def relativeOffsetAtAbsolutePosition (text : List Char) (origin : Pos) (position : Pos) : Int :=
  relAux text origin position

/-- Helper scan for `offsetAtDoc`. -/
def offsetAtAux : List Char → Pos → Pos → Nat → Nat
  | [], _, _, acc => acc
  | c :: rest, cur, p, acc =>
    if cur = p then acc else offsetAtAux rest (advancePos cur c) p (acc + 1)

/-- Modelled from the spec: text-util `offsetAt` — absolute document
offset of a position; clamps to the document length when the position is
not reached. (Named `offsetAtDoc` here to keep it distinct from the
sentence method `Sentence.offsetAt`.) -/
def offsetAtDoc (text : List Char) (p : Pos) : Nat :=
  offsetAtAux text ⟨0, 0⟩ p 0

/-- Modelled from the spec: text-util `RangeDelta` — how a single edit
shifts positions located after it: positions on the line of the edited
range's end are shifted by `linesDelta` lines and `charactersDelta`
columns; positions on later lines only by `linesDelta` lines. -/
structure RangeDelta where
  start : Pos
  stop : Pos
  linesDelta : Int
  charactersDelta : Int
  deriving DecidableEq, Repr

/-- Modelled from the spec: translate one position assumed to lie at or
after the edit described by `delta`; no bounds validation is performed. -/
def positionRangeDeltaTranslate (p : Pos) (d : RangeDelta) : Pos :=
  if p.line = d.stop.line then ⟨p.line + d.linesDelta, p.character + d.charactersDelta⟩
  else ⟨p.line + d.linesDelta, p.character⟩

/-- Modelled from the spec: text-util `positionRangeDeltaTranslateEnd` —
shifts an end-position anchored at/after the edit; same arithmetic as
`positionRangeDeltaTranslate`. -/
def positionRangeDeltaTranslateEnd (p : Pos) (d : RangeDelta) : Pos :=
  positionRangeDeltaTranslate p d

/-- Modelled from the spec: text-util `rangeDeltaTranslate` — shifts a
range assumed to lie entirely after the edit; produces a new range value
(the source returns a fresh object, so this breaks aliasing with the
argument). -/
def rangeDeltaTranslate (r : Range) (d : RangeDelta) : Range :=
  ⟨positionRangeDeltaTranslate r.start d, positionRangeDeltaTranslate r.stop d⟩

/-- Modelled from the spec: the geometric relationship between a
sentence's range and an incoming edit's range (closed sum type). -/
inductive SentenceRangeContainment where
  | Before
  | After
  | Crosses
  | Contains
  deriving DecidableEq, Repr

/-- Modelled from the spec: the parsing module's `sentenceRangeContainment`:
Before when the edit lies entirely at or before the sentence's start;
After when the edit starts at or after the sentence's end; Contains when
the edit is fully nested within the sentence; Crosses otherwise. -/
def sentenceRangeContainment (sentRange editRange : Range) : SentenceRangeContainment :=
  if positionIsBeforeOrEqual editRange.stop sentRange.start then .Before
  else if positionIsBeforeOrEqual sentRange.stop editRange.start then .After
  else if positionIsBeforeOrEqual sentRange.start editRange.start &&
          positionIsBeforeOrEqual editRange.stop sentRange.stop then .Contains
  else .Crosses

/-- Blank characters for the lexical oracles. -/
def isBlank (c : Char) : Bool :=
  c = ' ' || c = '\r' || c = '\n' || c = '\t'

/-- Modelled from the spec: the parsing module's `parseSentenceLength` —
re-lexes `text` from its start and returns the length of the longest
valid leading sentence (a prefix ended by a period followed by a blank or
the end of the text), or `-1` if no valid sentence prefix exists. -/
def parseSentenceLength : List Char → Int
  | [] => -1
  | '.' :: rest =>
    (match rest with
     | [] => 1
     | c :: _ =>
       if isBlank c then 1
       else
         let n := parseSentenceLength rest
         if n = -1 then -1 else n + 1)
  | _ :: rest =>
    let n := parseSentenceLength rest
    if n = -1 then -1 else n + 1

/-- Collapse every maximal run of blank characters to a single space. -/
def normalizeWs : List Char → List Char
  | [] => []
  | c :: rest =>
    if isBlank c then
      match normalizeWs rest with
      | ' ' :: t => ' ' :: t
      | t => ' ' :: t
    else c :: normalizeWs rest

/-- Modelled from the spec: the parsing module's `isPassiveDifference` —
oracle judging that two text snapshots differ only passively (pure
whitespace layout), so attached computed state may survive; modelled as
equality of whitespace-normalized texts. -/
def isPassiveDifference (oldText newText : List Char) : Bool :=
  normalizeWs oldText == normalizeWs newText

/-- One incoming edit (`vscode.TextDocumentContentChangeEvent`): replace
the `rangeLength` characters at `range` with `text`. -/
structure TextChange where
  range : Range
  rangeLength : Nat
  text : List Char
  deriving DecidableEq, Repr

/-- The stateful sentence entity of `Sentence.ts`. The attached computed
state is `none` when no handle is attached, and `some k` when a handle is
attached on which `markInvalid` has been invoked `k` times. The opaque
`symbols` metadata plays no role in any claim and is omitted. -/
structure Sentence where
  text : List Char
  documentRange : Range
  documentOffset : Int
  state : Option Nat
  deriving DecidableEq, Repr

/-- `Sentence.positionAt` from the source: document position of a local
character offset into this sentence. -/
def Sentence.positionAt (s : Sentence) (localOffset : Nat) : Pos :=
  positionAtRelative s.documentRange.start s.text localOffset

/-- `Sentence.offsetAt` from the source: the offset w.r.t. this sentence,
or `-1` if the position is not contained by this sentence. -/
def Sentence.offsetAt (s : Sentence) (position : Pos) : Int :=
  relativeOffsetAtAbsolutePosition s.text s.documentRange.start position

/-- `Sentence.documentOffsetAt` from the source: `documentOffset`
plus the relative offset of the position. -/
def Sentence.documentOffsetAt (s : Sentence) (position : Pos) : Int :=
  s.documentOffset + relativeOffsetAtAbsolutePosition s.text s.documentRange.start position

/-- `Sentence.contains` from the source. -/
def Sentence.contains (s : Sentence) (position : Pos) : Bool :=
  rangeContains s.documentRange position

/-- `Sentence.isBefore` from the source: this sentence appears strictly
before `position`. -/
def Sentence.isBefore (s : Sentence) (position : Pos) : Bool :=
  positionIsBeforeOrEqual s.documentRange.stop position

/-- `Sentence.isBeforeOrAt` from the source. -/
def Sentence.isBeforeOrAt (s : Sentence) (position : Pos) : Bool :=
  positionIsBeforeOrEqual s.documentRange.stop position ||
    positionIsBeforeOrEqual s.documentRange.start position

/-- `Sentence.isAfter` from the source: this sentence appears strictly
after `position`. -/
def Sentence.isAfter (s : Sentence) (position : Pos) : Bool :=
  positionIsAfter s.documentRange.start position

/-- `Sentence.isAfterOrAt` from the source. -/
def Sentence.isAfterOrAt (s : Sentence) (position : Pos) : Bool :=
  positionIsAfterOrEqual s.documentRange.start position ||
    positionIsAfter s.documentRange.stop position

/-- Result values of `Sentence.comparePosition`. -/
inductive CompareResult where
  | before
  | after
  | contains
  deriving DecidableEq, Repr

/-- `Sentence.comparePosition` from the source. -/
def Sentence.comparePosition (s : Sentence) (position : Pos) : CompareResult :=
  if positionIsBeforeOrEqual s.documentRange.stop position then .before
  else if positionIsAfter s.documentRange.start position then .after
  else .contains

/-- `Sentence.invalidate` from the source: `if(this.state)
this.state.markInvalid();` — one `markInvalid` call on the attached
handle when present, no effect (and no exception) otherwise. -/
def Sentence.invalidate (s : Sentence) : Sentence :=
  match s.state with
  | none => s
  | some k => { s with state := some (k + 1) }

/-- The working state of the reconciliation loop of `applyTextChanges`.
`newText`/`newRange`/`touchesEnd` are the source's loop locals;
`documentOffset` mirrors `this.documentOffset`, which the Before case
mutates in place; `docRange` mirrors the value of `this.documentRange`,
and `aliased` records whether the local `newRange` still refers to the
very same object as `this.documentRange` (true until the Before case
rebinds `newRange` to a freshly allocated translated range), so that the
Contains case's in-place `newRange.end = ...` also shows through
`this.documentRange`. -/
structure LoopState where
  newText : List Char
  newRange : Range
  touchesEnd : Bool
  documentOffset : Int
  docRange : Range
  aliased : Bool
  deriving DecidableEq, Repr

/-- The loop state at entry of `applyTextChanges`: `newText`/`newRange`
initialized from the sentence, with `newRange` aliasing
`this.documentRange`. -/
def initLoopState (s : Sentence) : LoopState :=
  ⟨s.text, s.documentRange, false, s.documentOffset, s.documentRange, true⟩

/-- Outcome of one iteration of the `change:` loop: continue with an
updated working state, or abort (the Crosses case's `return false`). -/
inductive StepOut where
  | cont (st : LoopState)
  | abort (st : LoopState)
  deriving DecidableEq, Repr

/-- One iteration of the `change:` loop of `applyTextChanges`, for the
change/delta pair at the current index. (The `newErrorRange` local of the
source is `undefined` throughout — nothing ever assigns it — so its
translation branch is dead code and is not modelled.) -/
def stepChange (st : LoopState) (change : TextChange) (delta : RangeDelta) : StepOut :=
  match sentenceRangeContainment st.newRange change.range with
  | .Before =>
    .cont { st with
      documentOffset := st.documentOffset + ((change.text.length : Int) - (change.rangeLength : Int)),
      newRange := rangeDeltaTranslate st.newRange delta,
      aliased := false }
  | .After =>
    .cont { st with
      touchesEnd := st.touchesEnd || positionIsEqual st.newRange.stop change.range.start }
  | .Crosses => .abort st
  | .Contains =>
    let beginOffset := relativeOffsetAtAbsolutePosition st.newText st.newRange.start change.range.start
    if beginOffset = -1 then .cont st
    else
      let b := beginOffset.toNat
      let newText := st.newText.take b ++ change.text ++ st.newText.drop (b + change.rangeLength)
      let newEnd := positionRangeDeltaTranslateEnd st.newRange.stop delta
      .cont { st with
        newText := newText,
        newRange := ⟨st.newRange.start, newEnd⟩,
        docRange := if st.aliased then ⟨st.docRange.start, newEnd⟩ else st.docRange }

/-- The `change:` loop of `applyTextChanges` over the paired
change/delta sequence. -/
def applyLoop (st : LoopState) : List (TextChange × RangeDelta) → StepOut
  | [] => .cont st
  | (c, d) :: rest =>
    match stepChange st c d with
    | .cont st' => applyLoop st' rest
    | .abort st' => .abort st'

/-- The boolean result of `applyTextChanges` together with the sentence
it leaves behind (the source mutates `this` in place). -/
structure ApplyResult where
  ok : Bool
  sentence : Sentence
  deriving DecidableEq, Repr

/-- `Sentence.applyTextChanges` from the source: reconcile the sentence
against a batch of changes with their parallel precomputed deltas and the
updated whole-document text. The source indexes `changes[idx]` and
`deltas[idx]` in lockstep, embedded here by zipping the two lists. -/
def Sentence.applyTextChanges (s : Sentence) (changes : List TextChange)
    (deltas : List RangeDelta) (updatedDocumentText : List Char) : ApplyResult :=
  match applyLoop (initLoopState s) (changes.zip deltas) with
  | .abort st =>
    { ok := false,
      sentence := Sentence.invalidate
        { s with documentRange := st.docRange, documentOffset := st.documentOffset } }
  | .cont st =>
    let newEnd := parseSentenceLength
      (st.newText ++ (updatedDocumentText.drop (offsetAtDoc updatedDocumentText st.newRange.stop)).take 1)
    if st.touchesEnd && (newEnd == -1 || !(newEnd == (st.newText.length : Int))) then
      { ok := false,
        sentence := Sentence.invalidate
          { s with documentRange := st.docRange, documentOffset := st.documentOffset } }
    else if isPassiveDifference s.text st.newText then
      { ok := true,
        sentence := { s with
          text := st.newText, documentRange := st.newRange, documentOffset := st.documentOffset } }
    else
      { ok := false,
        sentence := Sentence.invalidate
          { s with documentRange := st.docRange, documentOffset := st.documentOffset } }

/-- Strict lexicographic order on positions, propositional form. -/
def posLtP (a b : Pos) : Prop :=
  a.line < b.line ∨ (a.line = b.line ∧ a.character < b.character)

/-- Lexicographic order on positions, propositional form. -/
def posLeP (a b : Pos) : Prop :=
  a.line < b.line ∨ (a.line = b.line ∧ a.character ≤ b.character)

/-- The sentence-consistency invariant: walking the sentence's own text
from the start of its document range reaches exactly the end of that
range — the embedding of "`text.length` equals the character distance
from `documentRange.start` to `documentRange.end` in document
coordinates". -/
def sentenceInvariant (s : Sentence) : Prop :=
  walkAll s.documentRange.start s.text = s.documentRange.stop

/-- The same consistency invariant for the loop's working text/range. -/
def loopInv (st : LoopState) : Prop :=
  walkAll st.newRange.start st.newText = st.newRange.stop

/-- A delta/edit pair is well formed for the current working state:
the delta's range end is the edit range's end and its line/character
shifts are exactly those induced by replacing the edit range with the
edit's replacement text; moreover, when the edit is classified Contains
and its start resolves to a local offset `b`, the edit's `rangeLength`
and range end agree with the working text: offset `b + rangeLength` is in
range and walking that far from the working range's start reaches the
edit range's end. -/
def goodEditB (st : LoopState) (e : TextChange) (d : RangeDelta) : Bool :=
  (d.stop == e.range.stop) &&
  (d.linesDelta == (walkAll e.range.start e.text).line - e.range.stop.line) &&
  (d.charactersDelta == (walkAll e.range.start e.text).character - e.range.stop.character) &&
  (match sentenceRangeContainment st.newRange e.range with
   | .Contains =>
     let b := relativeOffsetAtAbsolutePosition st.newText st.newRange.start e.range.start
     if b = -1 then true
     else decide (b.toNat + e.rangeLength ≤ st.newText.length) &&
       (walkPos st.newRange.start st.newText (b.toNat + e.rangeLength) == e.range.stop)
   | _ => true)

/-- A batch is well formed when each change/delta pair is well formed for
the working state at which the loop meets it. -/
def goodBatchB : LoopState → List (TextChange × RangeDelta) → Bool
  | _, [] => true
  | st, (e, d) :: rest =>
    goodEditB st e d &&
    (match stepChange st e d with
     | .cont st' => goodBatchB st' rest
     | .abort _ => true)

theorem posLe_iff (a b : Pos) : positionIsBeforeOrEqual a b = true ↔ posLeP a b := by
  simp [positionIsBeforeOrEqual, posLeP, Bool.or_eq_true, Bool.and_eq_true,
    decide_eq_true_eq, beq_iff_eq]

theorem posLt_iff (a b : Pos) : positionIsBefore a b = true ↔ posLtP a b := by
  simp [positionIsBefore, posLtP, Bool.or_eq_true, Bool.and_eq_true,
    decide_eq_true_eq, beq_iff_eq]

theorem posEq_iff (a b : Pos) : positionIsEqual a b = true ↔ a = b := by
  cases a; cases b
  simp [positionIsEqual, Bool.and_eq_true, beq_iff_eq, Pos.mk.injEq]

theorem walkAll_append (a b : List Char) (p : Pos) :
    walkAll p (a ++ b) = walkAll (walkAll p a) b := by
  induction a generalizing p with
  | nil => rfl
  | cons c rest ih => simp [walkAll, ih]

theorem walkPos_eq_take (t : List Char) (p : Pos) (n : Nat) :
    walkPos p t n = walkAll p (t.take n) := by
  induction t generalizing p n with
  | nil => cases n <;> rfl
  | cons c rest ih =>
    cases n with
    | zero => rfl
    | succ m => simp [walkPos, walkAll, List.take, ih]

theorem advance_line_le (p : Pos) (c : Char) : p.line ≤ (advancePos p c).line := by
  unfold advancePos
  split <;> simp

theorem posLt_advance (p : Pos) (c : Char) : posLtP p (advancePos p c) := by
  unfold advancePos posLtP
  split <;> simp

theorem posLeP_refl (p : Pos) : posLeP p p := by
  simp [posLeP]

theorem posLtP_le (a b : Pos) (h : posLtP a b) : posLeP a b := by
  unfold posLtP at h
  unfold posLeP
  rcases h with h | ⟨h1, h2⟩
  · exact Or.inl h
  · exact Or.inr ⟨h1, le_of_lt h2⟩

theorem posLt_le_trans (a b c : Pos) (h1 : posLtP a b) (h2 : posLeP b c) : posLtP a c := by
  unfold posLtP at h1 ⊢
  unfold posLeP at h2
  rcases h1 with h1 | ⟨h1a, h1b⟩ <;> rcases h2 with h2 | ⟨h2a, h2b⟩ <;> [left; left; left; right] <;> omega

theorem posLtP_ne (a b : Pos) (h : posLtP a b) : a ≠ b := by
  intro he
  subst he
  unfold posLtP at h
  rcases h with h | ⟨_, h⟩ <;> omega

theorem posLe_walkPos (p : Pos) (t : List Char) (n : Nat) : posLeP p (walkPos p t n) := by
  induction t generalizing p n with
  | nil => cases n <;> simp [walkPos, posLeP_refl]
  | cons c rest ih =>
    cases n with
    | zero => simp [walkPos, posLeP_refl]
    | succ m =>
      simp only [walkPos]
      exact posLtP_le _ _ (posLt_le_trans _ _ _ (posLt_advance p c) (by
        have := ih (advancePos p c) m
        exact this))

theorem advance_translate (p : Pos) (c : Char) (d : RangeDelta)
    (h : d.stop.line ≤ p.line) :
    advancePos (positionRangeDeltaTranslate p d) c
      = positionRangeDeltaTranslate (advancePos p c) d := by
  have hne : ¬(p.line + 1 = d.stop.line) := by omega
  by_cases hc : c = '\n' <;> by_cases hl : p.line = d.stop.line <;>
    simp [advancePos, positionRangeDeltaTranslate, hc, hl, hne, Pos.mk.injEq] <;>
    omega

theorem translate_walkAll (t : List Char) (p : Pos) (d : RangeDelta)
    (h : d.stop.line ≤ p.line) :
    walkAll (positionRangeDeltaTranslate p d) t
      = positionRangeDeltaTranslate (walkAll p t) d := by
  induction t generalizing p with
  | nil => rfl
  | cons c rest ih =>
    simp only [walkAll]
    rw [advance_translate p c d h]
    exact ih (advancePos p c) (le_trans h (advance_line_le p c))

theorem relAux_nonneg (t : List Char) (cur p : Pos) :
    relAux t cur p = -1 ∨ 0 ≤ relAux t cur p := by
  induction t generalizing cur with
  | nil =>
    unfold relAux
    split
    · right; omega
    · left; rfl
  | cons c rest ih =>
    unfold relAux
    split
    · right; omega
    · simp only
      rcases ih (advancePos cur c) with h | h
      · rw [if_pos h]; left; rfl
      · by_cases he : relAux rest (advancePos cur c) p = -1
        · rw [if_pos he]; left; rfl
        · rw [if_neg he]; right; omega

theorem relAux_sound (t : List Char) (cur p : Pos) (n : Nat)
    (h : relAux t cur p = (n : Int)) : n ≤ t.length ∧ walkPos cur t n = p := by
  induction t generalizing cur n with
  | nil =>
    unfold relAux at h
    split at h
    · have hn : n = 0 := by omega
      subst hn
      exact ⟨Nat.le_refl 0, by simpa [walkPos] using ‹cur = p›⟩
    · omega
  | cons c rest ih =>
    unfold relAux at h
    split at h
    · have hn : n = 0 := by omega
      subst hn
      exact ⟨Nat.zero_le _, by simpa [walkPos] using ‹cur = p›⟩
    · simp only at h
      by_cases he : relAux rest (advancePos cur c) p = -1
      · rw [if_pos he] at h; omega
      · rw [if_neg he] at h
        rcases relAux_nonneg rest (advancePos cur c) p with hc | hc
        · exact absurd hc he
        · have hm : relAux rest (advancePos cur c) p = ((relAux rest (advancePos cur c) p).toNat : Int) := by
            omega
          have hn : n = (relAux rest (advancePos cur c) p).toNat + 1 := by omega
          obtain ⟨h1, h2⟩ := ih (advancePos cur c) (relAux rest (advancePos cur c) p).toNat hm
          subst hn
          exact ⟨by simpa [List.length_cons] using Nat.succ_le_succ h1, by simpa [walkPos] using h2⟩

theorem relAux_walk (t : List Char) (cur : Pos) (n : Nat) (h : n ≤ t.length) :
    relAux t cur (walkPos cur t n) = (n : Int) := by
  induction t generalizing cur n with
  | nil =>
    have hn : n = 0 := by simpa using h
    subst hn
    simp [walkPos, relAux]
  | cons c rest ih =>
    cases n with
    | zero => simp [walkPos, relAux]
    | succ m =>
      have hm : m ≤ rest.length := by simpa [List.length_cons] using h
      have htar : walkPos cur (c :: rest) (m + 1) = walkPos (advancePos cur c) rest m := by
        simp [walkPos]
      rw [htar]
      have hne : cur ≠ walkPos (advancePos cur c) rest m := by
        apply posLtP_ne
        exact posLt_le_trans _ _ _ (posLt_advance cur c) (posLe_walkPos (advancePos cur c) rest m)
      unfold relAux
      rw [if_neg hne]
      simp only
      rw [ih (advancePos cur c) m hm]
      have : ((m : Int)) ≠ -1 := by omega
      rw [if_neg this]
      push_cast
      ring

theorem containment_before (sr er : Range)
    (h : sentenceRangeContainment sr er = .Before) :
    positionIsBeforeOrEqual er.stop sr.start = true := by
  unfold sentenceRangeContainment at h
  split at h
  · assumption
  · split at h
    · exact absurd h (by simp)
    · split at h <;> exact absurd h (by simp)

theorem containment_contains (sr er : Range)
    (h : sentenceRangeContainment sr er = .Contains) :
    positionIsBeforeOrEqual sr.start er.start = true ∧
      positionIsBeforeOrEqual er.stop sr.stop = true := by
  unfold sentenceRangeContainment at h
  split at h
  · exact absurd h (by simp)
  · split at h
    · exact absurd h (by simp)
    · split at h
      · next hc => simpa [Bool.and_eq_true] using hc
      · exact absurd h (by simp)

theorem invalidate_text (s : Sentence) : (Sentence.invalidate s).text = s.text := by
  obtain ⟨t, r, o, st⟩ := s
  cases st <;> rfl

theorem invalidate_range (s : Sentence) :
    (Sentence.invalidate s).documentRange = s.documentRange := by
  obtain ⟨t, r, o, st⟩ := s
  cases st <;> rfl

theorem invalidate_offset (s : Sentence) :
    (Sentence.invalidate s).documentOffset = s.documentOffset := by
  obtain ⟨t, r, o, st⟩ := s
  cases st <;> rfl

theorem invalidate_state (s : Sentence) :
    (Sentence.invalidate s).state = s.state.map (fun k => k + 1) := by
  obtain ⟨t, r, o, st⟩ := s
  cases st <;> rfl

theorem passive_refl (t : List Char) : isPassiveDifference t t = true := by
  simp [isPassiveDifference]

theorem applyLoop_append (l1 l2 : List (TextChange × RangeDelta)) (st : LoopState) :
    applyLoop st (l1 ++ l2)
      = match applyLoop st l1 with
        | .cont st' => applyLoop st' l2
        | .abort st' => .abort st' := by
  induction l1 generalizing st with
  | nil => rfl
  | cons p rest ih =>
    obtain ⟨c, d⟩ := p
    simp only [List.cons_append, applyLoop]
    cases stepChange st c d <;> simp [ih]

theorem stepChange_touchesEnd (st : LoopState) (c : TextChange) (d : RangeDelta)
    (st' : LoopState) (h : stepChange st c d = .cont st')
    (ht : st.touchesEnd = true) : st'.touchesEnd = true := by
  unfold stepChange at h
  cases hsrc : sentenceRangeContainment st.newRange c.range <;> rw [hsrc] at h
  case Before => cases h; exact ht
  case After => cases h; simp [ht]
  case Crosses => cases h
  case Contains =>
    simp only at h
    split at h
    · cases h; exact ht
    · cases h; exact ht

theorem applyLoop_touchesEnd (l : List (TextChange × RangeDelta)) (st st' : LoopState)
    (h : applyLoop st l = .cont st') (ht : st.touchesEnd = true) :
    st'.touchesEnd = true := by
  induction l generalizing st with
  | nil =>
    unfold applyLoop at h
    cases h
    exact ht
  | cons p rest ih =>
    obtain ⟨c, d⟩ := p
    unfold applyLoop at h
    cases hstep : stepChange st c d <;> rw [hstep] at h
    · exact ih _ h (stepChange_touchesEnd st c d _ hstep ht)
    · cases h

theorem relOffset_nonneg (t : List Char) (origin p : Pos) :
    relativeOffsetAtAbsolutePosition t origin p = -1 ∨
      0 ≤ relativeOffsetAtAbsolutePosition t origin p := by
  unfold relativeOffsetAtAbsolutePosition
  exact relAux_nonneg t origin p

theorem relOffset_sound (t : List Char) (origin p : Pos) (n : Nat)
    (h : relativeOffsetAtAbsolutePosition t origin p = (n : Int)) :
    n ≤ t.length ∧ walkPos origin t n = p := by
  unfold relativeOffsetAtAbsolutePosition at h
  exact relAux_sound t origin p n h

theorem relOffset_walk (t : List Char) (origin : Pos) (n : Nat) (h : n ≤ t.length) :
    relativeOffsetAtAbsolutePosition t origin (walkPos origin t n) = (n : Int) := by
  unfold relativeOffsetAtAbsolutePosition
  exact relAux_walk t origin n h

theorem stepChange_inv (st : LoopState) (e : TextChange) (d : RangeDelta) (st' : LoopState)
    (hinv : loopInv st) (hgood : goodEditB st e d = true)
    (hstep : stepChange st e d = .cont st') : loopInv st' := by
  simp only [goodEditB, Bool.and_eq_true, beq_iff_eq] at hgood
  obtain ⟨⟨⟨hd1, hd2⟩, hd3⟩, hmatch⟩ := hgood
  unfold stepChange at hstep
  cases hsrc : sentenceRangeContainment st.newRange e.range <;> rw [hsrc] at hstep
  case Before =>
    cases hstep
    have hle : posLeP e.range.stop st.newRange.start :=
      (posLe_iff _ _).mp (containment_before _ _ hsrc)
    have hline : d.stop.line ≤ st.newRange.start.line := by
      rw [hd1]
      unfold posLeP at hle
      rcases hle with h | ⟨h, _⟩ <;> omega
    unfold loopInv at hinv ⊢
    unfold rangeDeltaTranslate
    simp only
    rw [translate_walkAll _ _ _ hline, hinv]
  case After =>
    cases hstep
    exact hinv
  case Crosses => cases hstep
  case Contains =>
    rw [hsrc] at hmatch
    simp only at hstep hmatch
    by_cases hb : relativeOffsetAtAbsolutePosition st.newText st.newRange.start e.range.start = -1
    · rw [if_pos hb] at hstep
      cases hstep
      exact hinv
    · rw [if_neg hb] at hstep hmatch
      rcases relOffset_nonneg st.newText st.newRange.start e.range.start with hneg | hpos
      · exact absurd hneg hb
      · cases hstep
        simp only [Bool.and_eq_true, decide_eq_true_eq, beq_iff_eq] at hmatch
        obtain ⟨hlen, hwalk2⟩ := hmatch
        have hn : relativeOffsetAtAbsolutePosition st.newText st.newRange.start e.range.start
            = (((relativeOffsetAtAbsolutePosition st.newText st.newRange.start e.range.start).toNat : Nat) : Int) := by
          omega
        obtain ⟨hn1, hn2⟩ := relOffset_sound _ _ _ _ hn
        unfold loopInv at hinv ⊢
        simp only
        rw [walkAll_append, walkAll_append]
        rw [← walkPos_eq_take, hn2]
        have hq : positionRangeDeltaTranslate e.range.stop d = walkAll e.range.start e.text := by
          unfold positionRangeDeltaTranslate
          rw [if_pos (by rw [hd1])]
          rw [hd2, hd3]
          generalize walkAll e.range.start e.text = q
          obtain ⟨ql, qc⟩ := q
          simp only [Pos.mk.injEq]
          constructor <;> omega
        rw [← hq]
        have hline2 : d.stop.line ≤ e.range.stop.line := by rw [hd1]
        rw [translate_walkAll _ _ _ hline2]
        have hsplit : walkAll e.range.stop
            (st.newText.drop ((relativeOffsetAtAbsolutePosition st.newText st.newRange.start e.range.start).toNat + e.rangeLength))
            = st.newRange.stop := by
          have := hinv
          rw [← List.take_append_drop
            ((relativeOffsetAtAbsolutePosition st.newText st.newRange.start e.range.start).toNat + e.rangeLength)
            st.newText] at this
          rw [walkAll_append, ← walkPos_eq_take, hwalk2] at this
          exact this
        rw [hsplit]
        rfl

theorem applyLoop_inv (l : List (TextChange × RangeDelta)) (st st' : LoopState)
    (hinv : loopInv st) (hgood : goodBatchB st l = true)
    (h : applyLoop st l = .cont st') : loopInv st' := by
  induction l generalizing st with
  | nil =>
    unfold applyLoop at h
    cases h
    exact hinv
  | cons p rest ih =>
    obtain ⟨c, d⟩ := p
    unfold applyLoop at h
    unfold goodBatchB at hgood
    rw [Bool.and_eq_true] at hgood
    obtain ⟨hg1, hg2⟩ := hgood
    cases hstep : stepChange st c d <;> rw [hstep] at h hg2
    · exact ih _ (stepChange_inv st c d _ hinv hg1 hstep) hg2 h
    · cases h

theorem applyTextChanges_shape (s : Sentence) (changes : List TextChange)
    (deltas : List RangeDelta) (doc : List Char) :
    ((Sentence.applyTextChanges s changes deltas doc).ok = true ∧
      (Sentence.applyTextChanges s changes deltas doc).sentence.state = s.state) ∨
    ((Sentence.applyTextChanges s changes deltas doc).ok = false ∧
      (Sentence.applyTextChanges s changes deltas doc).sentence.text = s.text ∧
      (Sentence.applyTextChanges s changes deltas doc).sentence.state
        = s.state.map (fun k => k + 1)) := by
  unfold Sentence.applyTextChanges
  cases applyLoop (initLoopState s) (changes.zip deltas) with
  | abort st => exact Or.inr ⟨rfl, invalidate_text _, invalidate_state _⟩
  | cont st =>
    simp only
    split
    · exact Or.inr ⟨rfl, invalidate_text _, invalidate_state _⟩
    · split
      · exact Or.inl ⟨rfl, rfl⟩
      · exact Or.inr ⟨rfl, invalidate_text _, invalidate_state _⟩

/-- C2: `applyTextChanges` returns `false` iff it invalidates the
sentence: on every `false` return with a state handle attached,
`markInvalid` is invoked on it exactly once; on a `true` return it is
never invoked; and the invalidation path is total (no exception) when no
state is attached — the unattached case leaves `none` untouched. -/
theorem applyTextChanges_invalidates_iff_false (s : Sentence) (changes : List TextChange)
    (deltas : List RangeDelta) (doc : List Char) :
    (Sentence.applyTextChanges s changes deltas doc).sentence.state
      = (if (Sentence.applyTextChanges s changes deltas doc).ok
         then s.state
         else s.state.map (fun k => k + 1)) := by
  rcases applyTextChanges_shape s changes deltas doc with ⟨h1, h2⟩ | ⟨h1, _, h3⟩
  · rw [h1, h2, if_pos rfl]
  · rw [h1, h3, if_neg (by simp)]

/-- C8: the empty batch is a no-op — `applyTextChanges [] [] doc`
returns `true` and leaves the sentence (text, documentRange,
documentOffset, and state) unchanged. -/
theorem applyTextChanges_noop (s : Sentence) (doc : List Char) :
    Sentence.applyTextChanges s [] [] doc = { ok := true, sentence := s } := by
  obtain ⟨t, r, o, stt⟩ := s
  unfold Sentence.applyTextChanges
  simp [initLoopState, applyLoop, passive_refl]

/-- C9: `documentOffsetAt` decomposes as `documentOffset + offsetAt`;
in particular on a position outside the sentence (where `offsetAt`
returns the sentinel `-1`) it returns `documentOffset - 1` rather than a
distinguished failure value. -/
theorem documentOffsetAt_decomposes (s : Sentence) (p : Pos) :
    s.documentOffsetAt p = s.documentOffset + s.offsetAt p ∧
      (s.offsetAt p = -1 → s.documentOffsetAt p = s.documentOffset - 1) := by
  constructor
  · rfl
  · intro h
    unfold Sentence.documentOffsetAt
    unfold Sentence.offsetAt at h
    rw [h]
    ring

theorem documentOffsetAt_decomposes_w :
    (⟨"foo.".toList, ⟨⟨0, 5⟩, ⟨0, 9⟩⟩, 5, none⟩ : Sentence).offsetAt ⟨3, 3⟩ = -1 ∧
      (⟨"foo.".toList, ⟨⟨0, 5⟩, ⟨0, 9⟩⟩, 5, none⟩ : Sentence).documentOffsetAt ⟨3, 3⟩
        = (⟨"foo.".toList, ⟨⟨0, 5⟩, ⟨0, 9⟩⟩, 5, none⟩ : Sentence).documentOffset - 1 :=
  ⟨by decide,
   (documentOffsetAt_decomposes (⟨"foo.".toList, ⟨⟨0, 5⟩, ⟨0, 9⟩⟩, 5, none⟩ : Sentence) ⟨3, 3⟩).2
     (by decide)⟩

/-- C7: the sentence-relative conversions are mutually inverse —
for every local offset `o` with `0 <= o <= text.length`,
`offsetAt (positionAt o) = o`. -/
theorem offsetAt_positionAt_roundtrip (s : Sentence) (o : Nat) (h : o ≤ s.text.length) :
    s.offsetAt (s.positionAt o) = (o : Int) := by
  unfold Sentence.offsetAt Sentence.positionAt positionAtRelative
  exact relOffset_walk s.text s.documentRange.start o h

theorem offsetAt_positionAt_roundtrip_w :
    (⟨"ab\nc.".toList, ⟨⟨2, 1⟩, ⟨3, 2⟩⟩, 7, none⟩ : Sentence).offsetAt
      ((⟨"ab\nc.".toList, ⟨⟨2, 1⟩, ⟨3, 2⟩⟩, 7, none⟩ : Sentence).positionAt 4) = (4 : Int) :=
  offsetAt_positionAt_roundtrip (⟨"ab\nc.".toList, ⟨⟨2, 1⟩, ⟨3, 2⟩⟩, 7, none⟩ : Sentence) 4
    (by decide)

theorem not_posLtP (a b : Pos) : ¬ posLtP a b ↔ posLeP b a := by
  unfold posLtP posLeP
  constructor
  · intro h
    by_cases h1 : a.line < b.line
    · exact absurd (Or.inl h1) h
    · by_cases h2 : b.line < a.line
      · exact Or.inl h2
      · have h3 : b.line = a.line := by omega
        refine Or.inr ⟨h3, ?_⟩
        by_cases h4 : a.character < b.character
        · exact absurd (Or.inr ⟨h3.symm, h4⟩) h
        · omega
  · rintro (h | ⟨h1, h2⟩) (h3 | ⟨h4, h5⟩) <;> omega

theorem isBefore_eq (s : Sentence) (p : Pos) :
    Sentence.isBefore s p = true ↔ posLeP s.documentRange.stop p :=
  posLe_iff _ _

theorem isAfter_eq (s : Sentence) (p : Pos) :
    Sentence.isAfter s p = true ↔ posLtP p s.documentRange.start :=
  posLt_iff _ _

theorem contains_eq (s : Sentence) (p : Pos) :
    Sentence.contains s p = true ↔
      (posLeP s.documentRange.start p ∧ posLtP p s.documentRange.stop) := by
  unfold Sentence.contains rangeContains
  rw [Bool.and_eq_true, Bool.not_eq_true']
  rw [← Bool.not_eq_true (positionIsBefore p s.documentRange.start)]
  rw [posLt_iff, posLt_iff, not_posLtP]

theorem isBeforeOrAt_eq (s : Sentence) (p : Pos) :
    Sentence.isBeforeOrAt s p = true ↔
      (posLeP s.documentRange.stop p ∨ posLeP s.documentRange.start p) := by
  unfold Sentence.isBeforeOrAt
  rw [Bool.or_eq_true, posLe_iff, posLe_iff]

theorem isAfterOrAt_eq (s : Sentence) (p : Pos) :
    Sentence.isAfterOrAt s p = true ↔
      (posLeP p s.documentRange.start ∨ posLtP p s.documentRange.stop) := by
  unfold Sentence.isAfterOrAt positionIsAfterOrEqual positionIsAfter
  rw [Bool.or_eq_true, posLe_iff, posLt_iff]

/-- C6: for every sentence with a well-formed range (`start <= end`) and
every position `p`, exactly one of `isBefore p`, `isAfter p`,
`contains p` holds, and the one that holds is the one named by
`comparePosition p`. -/
theorem comparePosition_consistent (s : Sentence) (p : Pos)
    (h : positionIsBeforeOrEqual s.documentRange.start s.documentRange.stop = true) :
    ((s.isBefore p = true ∨ s.isAfter p = true ∨ s.contains p = true) ∧
     ¬(s.isBefore p = true ∧ s.isAfter p = true) ∧
     ¬(s.isBefore p = true ∧ s.contains p = true) ∧
     ¬(s.isAfter p = true ∧ s.contains p = true)) ∧
    ((s.comparePosition p = CompareResult.before ↔ s.isBefore p = true) ∧
     (s.comparePosition p = CompareResult.after ↔ s.isAfter p = true) ∧
     (s.comparePosition p = CompareResult.contains ↔ s.contains p = true)) := by
  rw [posLe_iff] at h
  have hcmp : s.comparePosition p
      = (if positionIsBeforeOrEqual s.documentRange.stop p then CompareResult.before
         else if positionIsAfter s.documentRange.start p then CompareResult.after
         else CompareResult.contains) := rfl
  by_cases h1 : posLeP s.documentRange.stop p
  · have e1 : s.isBefore p = true := (isBefore_eq s p).mpr h1
    have e2 : ¬ s.isAfter p = true := by
      rw [isAfter_eq]
      unfold posLeP at h h1
      unfold posLtP
      omega
    have e3 : ¬ s.contains p = true := by
      rw [contains_eq]
      unfold posLeP at h h1
      unfold posLeP posLtP
      omega
    have e4 : s.comparePosition p = CompareResult.before := by
      rw [hcmp, if_pos ((posLe_iff _ _).mpr h1)]
    refine ⟨⟨Or.inl e1, ?_, ?_, ?_⟩, ?_, ?_, ?_⟩
    · intro ⟨_, hx⟩; exact e2 hx
    · intro ⟨_, hx⟩; exact e3 hx
    · intro ⟨hx, _⟩; exact e2 hx
    · exact ⟨fun _ => e1, fun _ => e4⟩
    · exact ⟨fun hx => absurd (e4 ▸ hx) (by simp), fun hx => absurd hx e2⟩
    · exact ⟨fun hx => absurd (e4 ▸ hx) (by simp), fun hx => absurd hx e3⟩
  · by_cases h2 : posLtP p s.documentRange.start
    · have e1 : ¬ s.isBefore p = true := by rw [isBefore_eq]; exact h1
      have e2 : s.isAfter p = true := (isAfter_eq s p).mpr h2
      have e3 : ¬ s.contains p = true := by
        rw [contains_eq]
        unfold posLtP at h2
        unfold posLeP posLtP
        omega
      have e4 : s.comparePosition p = CompareResult.after := by
        rw [hcmp, if_neg (by rw [posLe_iff]; exact h1),
          if_pos (by unfold positionIsAfter; rw [posLt_iff]; exact h2)]
      refine ⟨⟨Or.inr (Or.inl e2), ?_, ?_, ?_⟩, ?_, ?_, ?_⟩
      · intro ⟨hx, _⟩; exact e1 hx
      · intro ⟨hx, _⟩; exact e1 hx
      · intro ⟨_, hx⟩; exact e3 hx
      · exact ⟨fun hx => absurd (e4 ▸ hx) (by simp), fun hx => absurd hx e1⟩
      · exact ⟨fun _ => e2, fun _ => e4⟩
      · exact ⟨fun hx => absurd (e4 ▸ hx) (by simp), fun hx => absurd hx e3⟩
    · have e1 : ¬ s.isBefore p = true := by rw [isBefore_eq]; exact h1
      have e2 : ¬ s.isAfter p = true := by rw [isAfter_eq]; exact h2
      have e3 : s.contains p = true := by
        rw [contains_eq]
        rw [not_posLtP] at h2
        refine ⟨h2, ?_⟩
        unfold posLeP at h1
        unfold posLtP
        omega
      have e4 : s.comparePosition p = CompareResult.contains := by
        rw [hcmp, if_neg (by rw [posLe_iff]; exact h1),
          if_neg (by unfold positionIsAfter; rw [posLt_iff]; exact h2)]
      refine ⟨⟨Or.inr (Or.inr e3), ?_, ?_, ?_⟩, ?_, ?_, ?_⟩
      · intro ⟨hx, _⟩; exact e1 hx
      · intro ⟨hx, _⟩; exact e1 hx
      · intro ⟨hx, _⟩; exact e2 hx
      · exact ⟨fun hx => absurd (e4 ▸ hx) (by simp), fun hx => absurd hx e1⟩
      · exact ⟨fun hx => absurd (e4 ▸ hx) (by simp), fun hx => absurd hx e2⟩
      · exact ⟨fun _ => e3, fun _ => e4⟩

theorem comparePosition_consistent_w :
    positionIsBeforeOrEqual (⟨⟨0, 5⟩, ⟨0, 9⟩⟩ : Range).start (⟨⟨0, 5⟩, ⟨0, 9⟩⟩ : Range).stop
        = true ∧
      ((⟨"foo.".toList, ⟨⟨0, 5⟩, ⟨0, 9⟩⟩, 5, none⟩ : Sentence).comparePosition ⟨0, 7⟩
          = CompareResult.contains ↔
        (⟨"foo.".toList, ⟨⟨0, 5⟩, ⟨0, 9⟩⟩, 5, none⟩ : Sentence).contains ⟨0, 7⟩ = true) :=
  ⟨by decide,
   (comparePosition_consistent (⟨"foo.".toList, ⟨⟨0, 5⟩, ⟨0, 9⟩⟩, 5, none⟩ : Sentence) ⟨0, 7⟩
     (by decide)).2.2.2⟩

/-- C10: for a sentence with a non-empty range (`start < end`),
`isBeforeOrAt p` holds iff `isBefore p` or `contains p` holds, and
`isAfterOrAt p` holds iff `isAfter p` or `contains p` holds. -/
theorem orAt_decompositions (s : Sentence) (p : Pos)
    (h : positionIsBefore s.documentRange.start s.documentRange.stop = true) :
    (s.isBeforeOrAt p = true ↔ (s.isBefore p = true ∨ s.contains p = true)) ∧
    (s.isAfterOrAt p = true ↔ (s.isAfter p = true ∨ s.contains p = true)) := by
  rw [posLt_iff] at h
  rw [isBeforeOrAt_eq, isAfterOrAt_eq, isBefore_eq, isAfter_eq, contains_eq]
  unfold posLtP at h
  unfold posLeP posLtP
  omega

theorem orAt_decompositions_w :
    positionIsBefore (⟨⟨0, 5⟩, ⟨0, 9⟩⟩ : Range).start (⟨⟨0, 5⟩, ⟨0, 9⟩⟩ : Range).stop = true ∧
      ((⟨"foo.".toList, ⟨⟨0, 5⟩, ⟨0, 9⟩⟩, 5, none⟩ : Sentence).isBeforeOrAt ⟨0, 7⟩ = true ↔
        ((⟨"foo.".toList, ⟨⟨0, 5⟩, ⟨0, 9⟩⟩, 5, none⟩ : Sentence).isBefore ⟨0, 7⟩ = true ∨
         (⟨"foo.".toList, ⟨⟨0, 5⟩, ⟨0, 9⟩⟩, 5, none⟩ : Sentence).contains ⟨0, 7⟩ = true)) :=
  ⟨by decide,
   (orAt_decompositions (⟨"foo.".toList, ⟨⟨0, 5⟩, ⟨0, 9⟩⟩, 5, none⟩ : Sentence) ⟨0, 7⟩
     (by decide)).1⟩

/-- C1 counterexample: the claim that a `false` return leaves `text`,
`documentRange` and `documentOffset` untouched fails on the code. In this
batch the first edit is Contains and mutates the end of the working range
in place while it still aliases `this.documentRange`, the second is
Before and advances `this.documentOffset` in place, and the third
Crosses, so the call returns `false` — yet `documentOffset` is 7 (was 5)
and `documentRange` ends at character 10 (was 9). -/
theorem applyTextChanges_false_mutates_cex :
    (Sentence.applyTextChanges ⟨"foo.".toList, ⟨⟨0, 5⟩, ⟨0, 9⟩⟩, 5, some 0⟩
        [⟨⟨⟨0, 6⟩, ⟨0, 7⟩⟩, 1, "xy".toList⟩, ⟨⟨⟨0, 0⟩, ⟨0, 0⟩⟩, 0, "ab".toList⟩,
         ⟨⟨⟨0, 10⟩, ⟨0, 20⟩⟩, 10, []⟩]
        [⟨⟨0, 6⟩, ⟨0, 7⟩, 0, 1⟩, ⟨⟨0, 0⟩, ⟨0, 0⟩, 0, 2⟩, ⟨⟨0, 0⟩, ⟨0, 0⟩, 0, 0⟩] []).ok
      = false ∧
    (Sentence.applyTextChanges ⟨"foo.".toList, ⟨⟨0, 5⟩, ⟨0, 9⟩⟩, 5, some 0⟩
        [⟨⟨⟨0, 6⟩, ⟨0, 7⟩⟩, 1, "xy".toList⟩, ⟨⟨⟨0, 0⟩, ⟨0, 0⟩⟩, 0, "ab".toList⟩,
         ⟨⟨⟨0, 10⟩, ⟨0, 20⟩⟩, 10, []⟩]
        [⟨⟨0, 6⟩, ⟨0, 7⟩, 0, 1⟩, ⟨⟨0, 0⟩, ⟨0, 0⟩, 0, 2⟩, ⟨⟨0, 0⟩, ⟨0, 0⟩, 0, 0⟩]
        []).sentence.documentOffset ≠ (5 : Int) ∧
    (Sentence.applyTextChanges ⟨"foo.".toList, ⟨⟨0, 5⟩, ⟨0, 9⟩⟩, 5, some 0⟩
        [⟨⟨⟨0, 6⟩, ⟨0, 7⟩⟩, 1, "xy".toList⟩, ⟨⟨⟨0, 0⟩, ⟨0, 0⟩⟩, 0, "ab".toList⟩,
         ⟨⟨⟨0, 10⟩, ⟨0, 20⟩⟩, 10, []⟩]
        [⟨⟨0, 6⟩, ⟨0, 7⟩, 0, 1⟩, ⟨⟨0, 0⟩, ⟨0, 0⟩, 0, 2⟩, ⟨⟨0, 0⟩, ⟨0, 0⟩, 0, 0⟩]
        []).sentence.documentRange ≠ (⟨⟨0, 5⟩, ⟨0, 9⟩⟩ : Range) := by
  refine ⟨by decide, by decide, by decide⟩

/-- C1 (amended): on a `false` (invalidating) return, the sentence's
`text` is unchanged and `markInvalid` is the state effect; the working
`documentOffset` and `documentRange`, however, may retain the partial
in-place updates of edits processed before the invalidation (the working
range aliases `this.documentRange` until a Before edit rebinds it, and
Before edits advance `this.documentOffset` directly). -/
theorem applyTextChanges_false_preserves_text (s : Sentence) (changes : List TextChange)
    (deltas : List RangeDelta) (doc : List Char)
    (h : (Sentence.applyTextChanges s changes deltas doc).ok = false) :
    (Sentence.applyTextChanges s changes deltas doc).sentence.text = s.text ∧
    (Sentence.applyTextChanges s changes deltas doc).sentence.state
      = s.state.map (fun k => k + 1) := by
  rcases applyTextChanges_shape s changes deltas doc with ⟨h1, _⟩ | ⟨_, h2, h3⟩
  · rw [h1] at h
    cases h
  · exact ⟨h2, h3⟩

theorem applyTextChanges_false_preserves_text_w :
    (Sentence.applyTextChanges ⟨"foo.".toList, ⟨⟨0, 5⟩, ⟨0, 9⟩⟩, 5, some 0⟩
        [⟨⟨⟨0, 5⟩, ⟨0, 8⟩⟩, 3, "bar".toList⟩] [⟨⟨0, 5⟩, ⟨0, 8⟩, 0, 0⟩] []).sentence.text
      = "foo.".toList ∧
    (Sentence.applyTextChanges ⟨"foo.".toList, ⟨⟨0, 5⟩, ⟨0, 9⟩⟩, 5, some 0⟩
        [⟨⟨⟨0, 5⟩, ⟨0, 8⟩⟩, 3, "bar".toList⟩] [⟨⟨0, 5⟩, ⟨0, 8⟩, 0, 0⟩] []).sentence.state
      = (some 0 : Option Nat).map (fun k => k + 1) :=
  applyTextChanges_false_preserves_text ⟨"foo.".toList, ⟨⟨0, 5⟩, ⟨0, 9⟩⟩, 5, some 0⟩
    [⟨⟨⟨0, 5⟩, ⟨0, 8⟩⟩, 3, "bar".toList⟩] [⟨⟨0, 5⟩, ⟨0, 8⟩, 0, 0⟩] [] (by decide)

/-- C3: once an edit in the batch classifies as Crosses against the
current working range, `applyTextChanges` invalidates (exactly one
`markInvalid` on the attached state) and returns `false`, and the edits
after it are never processed: the result is identical to running the
batch truncated right after the crossing edit. -/
theorem crosses_short_circuits (s : Sentence) (cpre : List TextChange)
    (dpre : List RangeDelta) (e : TextChange) (d : RangeDelta)
    (crest : List TextChange) (drest : List RangeDelta) (doc : List Char) (st : LoopState)
    (hlen : cpre.length = dpre.length)
    (hpre : applyLoop (initLoopState s) (cpre.zip dpre) = .cont st)
    (hcross : sentenceRangeContainment st.newRange e.range = .Crosses) :
    Sentence.applyTextChanges s (cpre ++ e :: crest) (dpre ++ d :: drest) doc
      = Sentence.applyTextChanges s (cpre ++ [e]) (dpre ++ [d]) doc ∧
    (Sentence.applyTextChanges s (cpre ++ e :: crest) (dpre ++ d :: drest) doc).ok = false ∧
    (Sentence.applyTextChanges s (cpre ++ e :: crest) (dpre ++ d :: drest) doc).sentence.state
      = s.state.map (fun k => k + 1) := by
  have hstep : stepChange st e d = .abort st := by
    unfold stepChange
    rw [hcross]
  have hrun : ∀ rest, applyLoop (initLoopState s) (cpre.zip dpre ++ (e, d) :: rest)
      = .abort st := by
    intro rest
    rw [applyLoop_append, hpre]
    unfold applyLoop
    rw [hstep]
  have hz1 : (cpre ++ e :: crest).zip (dpre ++ d :: drest)
      = cpre.zip dpre ++ (e, d) :: crest.zip drest := List.zip_append hlen
  have hz2 : (cpre ++ [e]).zip (dpre ++ [d]) = cpre.zip dpre ++ [(e, d)] :=
    List.zip_append hlen
  unfold Sentence.applyTextChanges
  rw [hz1, hz2, hrun (crest.zip drest), hrun []]
  exact ⟨rfl, rfl, invalidate_state _⟩

theorem crosses_short_circuits_w :
    Sentence.applyTextChanges ⟨"foo.".toList, ⟨⟨0, 5⟩, ⟨0, 9⟩⟩, 5, some 0⟩
        ([] ++ ⟨⟨⟨0, 7⟩, ⟨0, 20⟩⟩, 13, []⟩ :: [⟨⟨⟨0, 0⟩, ⟨0, 0⟩⟩, 0, "zz".toList⟩])
        ([] ++ ⟨⟨0, 7⟩, ⟨0, 20⟩, 0, 0⟩ :: [⟨⟨0, 0⟩, ⟨0, 0⟩, 0, 2⟩]) []
      = Sentence.applyTextChanges ⟨"foo.".toList, ⟨⟨0, 5⟩, ⟨0, 9⟩⟩, 5, some 0⟩
        ([] ++ [⟨⟨⟨0, 7⟩, ⟨0, 20⟩⟩, 13, []⟩]) ([] ++ [⟨⟨0, 7⟩, ⟨0, 20⟩, 0, 0⟩]) [] ∧
    (Sentence.applyTextChanges ⟨"foo.".toList, ⟨⟨0, 5⟩, ⟨0, 9⟩⟩, 5, some 0⟩
        ([] ++ ⟨⟨⟨0, 7⟩, ⟨0, 20⟩⟩, 13, []⟩ :: [⟨⟨⟨0, 0⟩, ⟨0, 0⟩⟩, 0, "zz".toList⟩])
        ([] ++ ⟨⟨0, 7⟩, ⟨0, 20⟩, 0, 0⟩ :: [⟨⟨0, 0⟩, ⟨0, 0⟩, 0, 2⟩]) []).ok = false ∧
    (Sentence.applyTextChanges ⟨"foo.".toList, ⟨⟨0, 5⟩, ⟨0, 9⟩⟩, 5, some 0⟩
        ([] ++ ⟨⟨⟨0, 7⟩, ⟨0, 20⟩⟩, 13, []⟩ :: [⟨⟨⟨0, 0⟩, ⟨0, 0⟩⟩, 0, "zz".toList⟩])
        ([] ++ ⟨⟨0, 7⟩, ⟨0, 20⟩, 0, 0⟩ :: [⟨⟨0, 0⟩, ⟨0, 0⟩, 0, 2⟩]) []).sentence.state
      = (some 0 : Option Nat).map (fun k => k + 1) :=
  crosses_short_circuits ⟨"foo.".toList, ⟨⟨0, 5⟩, ⟨0, 9⟩⟩, 5, some 0⟩ []
    [] ⟨⟨⟨0, 7⟩, ⟨0, 20⟩⟩, 13, []⟩ ⟨⟨0, 7⟩, ⟨0, 20⟩, 0, 0⟩
    [⟨⟨⟨0, 0⟩, ⟨0, 0⟩⟩, 0, "zz".toList⟩] [⟨⟨0, 0⟩, ⟨0, 0⟩, 0, 2⟩] []
    (initLoopState ⟨"foo.".toList, ⟨⟨0, 5⟩, ⟨0, 9⟩⟩, 5, some 0⟩) rfl rfl (by decide)

/-- C4: if some edit classifies as After with its range start exactly at
the working range's end, `touchesEnd` is set and survives the loop, and
the boundary is re-validated after the loop: the single character of the
updated document following the working range's end is appended to the
working text and fed to `parseSentenceLength`; whenever the result is
`-1` or differs from the working text's length, `applyTextChanges`
invalidates and returns `false`. -/
theorem touchesEnd_revalidation (s : Sentence) (cpre : List TextChange)
    (dpre : List RangeDelta) (e : TextChange) (d : RangeDelta)
    (crest : List TextChange) (drest : List RangeDelta) (doc : List Char)
    (st1 st2 : LoopState)
    (hlen : cpre.length = dpre.length)
    (hpre : applyLoop (initLoopState s) (cpre.zip dpre) = .cont st1)
    (hafter : sentenceRangeContainment st1.newRange e.range = .After)
    (htouch : positionIsEqual st1.newRange.stop e.range.start = true)
    (hfull : applyLoop (initLoopState s) ((cpre ++ e :: crest).zip (dpre ++ d :: drest))
      = .cont st2)
    (hbad : parseSentenceLength
        (st2.newText ++ (doc.drop (offsetAtDoc doc st2.newRange.stop)).take 1) = -1 ∨
      parseSentenceLength
        (st2.newText ++ (doc.drop (offsetAtDoc doc st2.newRange.stop)).take 1)
        ≠ (st2.newText.length : Int)) :
    st2.touchesEnd = true ∧
    (Sentence.applyTextChanges s (cpre ++ e :: crest) (dpre ++ d :: drest) doc).ok = false := by
  have hstep : stepChange st1 e d
      = .cont { st1 with
          touchesEnd := st1.touchesEnd || positionIsEqual st1.newRange.stop e.range.start } := by
    unfold stepChange
    rw [hafter]
  have hfull' := hfull
  rw [List.zip_append hlen, applyLoop_append, hpre] at hfull
  simp only at hfull
  rw [List.zip_cons_cons] at hfull
  unfold applyLoop at hfull
  rw [hstep] at hfull
  simp only at hfull
  have htE : st2.touchesEnd = true := by
    apply applyLoop_touchesEnd _ _ _ hfull
    simp [htouch]
  refine ⟨htE, ?_⟩
  have hcond : (st2.touchesEnd &&
      (parseSentenceLength
          (st2.newText ++ (doc.drop (offsetAtDoc doc st2.newRange.stop)).take 1) == -1 ||
        !(parseSentenceLength
            (st2.newText ++ (doc.drop (offsetAtDoc doc st2.newRange.stop)).take 1)
          == (st2.newText.length : Int)))) = true := by
    rw [htE, Bool.true_and]
    rcases hbad with hb | hb
    · rw [hb]
      simp
    · have hfalse : (parseSentenceLength
          (st2.newText ++ (doc.drop (offsetAtDoc doc st2.newRange.stop)).take 1)
          == (st2.newText.length : Int)) = false := by
        rw [beq_eq_false_iff_ne]
        exact hb
      rw [hfalse]
      simp
  unfold Sentence.applyTextChanges
  rw [hfull']
  simp only
  rw [if_pos hcond]

theorem touchesEnd_revalidation_w :
    (⟨"foo.".toList, ⟨⟨0, 5⟩, ⟨0, 9⟩⟩, true, 5, ⟨⟨0, 5⟩, ⟨0, 9⟩⟩, true⟩ : LoopState).touchesEnd
      = true ∧
    (Sentence.applyTextChanges ⟨"foo.".toList, ⟨⟨0, 5⟩, ⟨0, 9⟩⟩, 5, some 0⟩
        ([] ++ ⟨⟨⟨0, 9⟩, ⟨0, 9⟩⟩, 0, "x".toList⟩ :: [])
        ([] ++ ⟨⟨0, 9⟩, ⟨0, 9⟩, 0, 1⟩ :: []) "01234foo.x".toList).ok = false :=
  touchesEnd_revalidation ⟨"foo.".toList, ⟨⟨0, 5⟩, ⟨0, 9⟩⟩, 5, some 0⟩ [] []
    ⟨⟨⟨0, 9⟩, ⟨0, 9⟩⟩, 0, "x".toList⟩ ⟨⟨0, 9⟩, ⟨0, 9⟩, 0, 1⟩ [] [] "01234foo.x".toList
    (initLoopState ⟨"foo.".toList, ⟨⟨0, 5⟩, ⟨0, 9⟩⟩, 5, some 0⟩)
    ⟨"foo.".toList, ⟨⟨0, 5⟩, ⟨0, 9⟩⟩, true, 5, ⟨⟨0, 5⟩, ⟨0, 9⟩⟩, true⟩
    rfl rfl (by decide) (by decide) (by decide) (Or.inl (by decide))

/-- C5: for a sentence satisfying the consistency invariant (walking its
text from the start of its document range reaches the range's end, i.e.
`text.length` equals the distance from start to end) and a batch whose
deltas correctly describe their edits (and whose Contains edits agree
with the working text), a `true` return leaves the committed sentence
satisfying the same invariant. -/
theorem applyTextChanges_commit_or_invalid (s : Sentence) (changes : List TextChange)
    (deltas : List RangeDelta) (doc : List Char) :
    ((Sentence.applyTextChanges s changes deltas doc).ok = false) ∨
    (∃ st, applyLoop (initLoopState s) (changes.zip deltas) = .cont st ∧
      Sentence.applyTextChanges s changes deltas doc
        = { ok := true,
            sentence := { s with
              text := st.newText, documentRange := st.newRange,
              documentOffset := st.documentOffset } }) := by
  unfold Sentence.applyTextChanges
  cases hloop : applyLoop (initLoopState s) (changes.zip deltas) with
  | abort st => exact Or.inl rfl
  | cont st =>
    simp only
    split
    · exact Or.inl rfl
    · split
      · exact Or.inr ⟨st, rfl, rfl⟩
      · exact Or.inl rfl

/-- C5: for a sentence satisfying the consistency invariant (walking its
text from the start of its document range reaches the range's end, i.e.
`text.length` equals the distance from start to end) and a batch whose
deltas correctly describe their edits (and whose Contains edits agree
with the working text), a `true` return leaves the committed sentence
satisfying the same invariant. -/
theorem applyTextChanges_preserves_invariant (s : Sentence) (changes : List TextChange)
    (deltas : List RangeDelta) (doc : List Char)
    (hinv : sentenceInvariant s)
    (hgood : goodBatchB (initLoopState s) (changes.zip deltas) = true)
    (hok : (Sentence.applyTextChanges s changes deltas doc).ok = true) :
    sentenceInvariant (Sentence.applyTextChanges s changes deltas doc).sentence := by
  rcases applyTextChanges_commit_or_invalid s changes deltas doc with h | ⟨st, hloop, heq⟩
  · rw [h] at hok
    exact Bool.noConfusion hok
  · rw [heq]
    have hinv2 : loopInv (initLoopState s) := hinv
    have hconc := applyLoop_inv _ _ _ hinv2 hgood hloop
    unfold sentenceInvariant
    unfold loopInv at hconc
    exact hconc

theorem applyTextChanges_preserves_invariant_w :
    sentenceInvariant
      (Sentence.applyTextChanges ⟨"foo.  ".toList, ⟨⟨0, 5⟩, ⟨0, 11⟩⟩, 5, some 0⟩
        [⟨⟨⟨0, 9⟩, ⟨0, 11⟩⟩, 2, " ".toList⟩] [⟨⟨0, 9⟩, ⟨0, 11⟩, 0, -1⟩] []).sentence :=
  applyTextChanges_preserves_invariant ⟨"foo.  ".toList, ⟨⟨0, 5⟩, ⟨0, 11⟩⟩, 5, some 0⟩
    [⟨⟨⟨0, 9⟩, ⟨0, 11⟩⟩, 2, " ".toList⟩] [⟨⟨0, 9⟩, ⟨0, 11⟩, 0, -1⟩] []
    (by unfold sentenceInvariant; decide) (by decide) (by decide)
